import Mathlib

/-!
# Verification of the IXP co-membership clusterer (`heatmap_ixps`)

A shallow embedding of the core of `ixp-analysis.py`: the per-region
co-membership clustering pipeline `heatmap_ixps` (grouping of membership
edges, pruning of unpopular international IXPs, similarity-matrix
construction, cluster-based reordering, and title metadata), together
with theorems about its behaviour.

Python dictionaries are insertion-ordered, so the `defaultdict(set)`
accumulators are embedded as association lists `List (String × Finset ℕ)`
built by a fold that updates an existing key in place and appends a new
key at the end.  Python `set` becomes `Finset ℕ` (or `Finset String`).
Float arithmetic on the threshold (`int(len(asns)*MIN_NB_AS)` with
`MIN_NB_AS = 0.05`) is embedded exactly over `ℚ`: for every attainable
count `n`, the double rounding of `n * 0.05` never crosses an integer,
so `int(...)` agrees with `⌊n * (5/100)⌋`.

The SciPy calls `linkage(..., 'ward')` / `fcluster(Z, 0.2, 'distance')`
are external library code; the pipeline is parameterised by the cluster
assignment they produce, constrained by `ValidClusters` — the guarantees
`fcluster` documents: one id per observation, ids are `1 .. max`, every
id in that range is used.
-/

/-- One row of the membership relation returned by the IYP query:
`(ix_name, member_asn, ix_country, data_source)`. -/
structure MembershipEdge where
  ix_name : String
  member_asn : ℕ
  ix_country : String
  data_source : String
deriving DecidableEq, Repr

/-- `MIN_NB_AS = 0.05`, the fraction of a region's ASNs an international
IXP must host to be kept. -/
def MIN_NB_AS : ℚ := 5 / 100

/-- `NORMALIZE = False`: default normalization flag. -/
def NORMALIZE : Bool := false

/-- ASCII case-folding of one character, as Python's `str.lower` acts on the
IXP labels at hand (query results are ASCII names suffixed with an upper-case
country code). -/
def lowerChar (c : Char) : Char :=
  if 65 ≤ c.toNat ∧ c.toNat ≤ 90 then Char.ofNat (c.toNat + 32) else c

/-- `s.lower()`. -/
def strLower (s : String) : String := ⟨s.data.map lowerChar⟩

/-- `s.endswith(suffix)`. -/
def strEndsWith (s suffix : String) : Bool := suffix.data.isSuffixOf s.data

/-- Insertion-ordered update of a `defaultdict(set)`-style association list:
`m[k].add(a)` — update the entry for `k` in place, or append `(k, {a})`. -/
def addMember (m : List (String × Finset ℕ)) (k : String) (a : ℕ) :
    List (String × Finset ℕ) :=
  match m with
  | [] => [(k, {a})]
  | (k', s) :: rest =>
      if k' = k then (k', insert a s) :: rest else (k', s) :: addMember rest k a

/-- The `ixs` accumulator: `ixs[ix_name.lower()].add(member_asn)` folded over
the query result. -/
def groupIxs (edges : List MembershipEdge) : List (String × Finset ℕ) :=
  edges.foldl (fun m e => addMember m (strLower e.ix_name) e.member_asn) []

/-- The `asns` accumulator: `asns.add(member_asn)` over all edges — the set of
distinct member ASNs of the whole relation. -/
def allAsns (edges : List MembershipEdge) : Finset ℕ :=
  edges.foldl (fun s e => insert e.member_asn s) ∅

/-- The `countries` accumulator: `countries[ix_country].add(member_asn)`. -/
def groupCountries (edges : List MembershipEdge) : List (String × Finset ℕ) :=
  edges.foldl (fun m e => addMember m e.ix_country e.member_asn) []

/-- Insertion-ordered fold for `membership_per_dataset[data_source].add(...)`,
collecting `(ix_name, member_asn)` pairs per data source (the Python code
stores the formatted string `f'{ix_name}, {member_asn}'`; the pair carries
the same information). -/
def addPair (m : List (String × Finset (String × ℕ))) (k : String)
    (a : String × ℕ) : List (String × Finset (String × ℕ)) :=
  match m with
  | [] => [(k, {a})]
  | (k', s) :: rest =>
      if k' = k then (k', insert a s) :: rest else (k', s) :: addPair rest k a

/-- The `membership_per_dataset` accumulator. -/
def groupDatasets (edges : List MembershipEdge) :
    List (String × Finset (String × ℕ)) :=
  edges.foldl (fun m e => addPair m e.data_source (e.ix_name, e.member_asn)) []

/-- `threshold_ixp = max(int(len(asns)*MIN_NB_AS), 5)` with
`MIN_NB_AS = 0.05`: for a count `n`, the float product `n * 0.05` truncates
to `⌊n / 20⌋` (the double rounding never crosses an integer, since `0.05`
rounds up and `n/20` off an integer misses it by at least `1/20`), embedded
as the exact natural division `n * 5 / 100`. -/
def thresholdIxp (edges : List MembershipEdge) : ℕ :=
  max ((allAsns edges).card * 5 / 100) 5

/-- The removal test applied to an entry `(ix, members)` of `ixs`:
`len(members) < threshold and not ix.endswith(cc.lower())` or
(`ix.endswith(cc.lower()) and len(members) < 5`). -/
def removeIx (cc : String) (t : ℕ) (p : String × Finset ℕ) : Bool :=
  (decide (p.2.card < t) && !(strEndsWith p.1 (strLower cc))) ||
    (strEndsWith p.1 (strLower cc) && decide (p.2.card < 5))

/-- The pruned `ixs` mapping: collect `to_remove` and pop each key — net
effect, an order-preserving filter. -/
def prunedIxs (cc : String) (edges : List MembershipEdge) :
    List (String × Finset ℕ) :=
  (groupIxs edges).filter fun p => !(removeIx cc (thresholdIxp edges) p)

/-- `nb_members_matrix`: for each pair of surviving exchanges, the size of the
intersection of their member sets, divided by the row's own set size when
`NORMALIZE` is on.  Entries live in `ℚ` (the Python floats are exact here). -/
def buildMatrix (normalize : Bool) (m : List (String × Finset ℕ)) :
    List (List ℚ) :=
  m.map fun p0 => m.map fun p1 =>
    if normalize then ((p0.2 ∩ p1.2).card : ℚ) / (p0.2.card : ℚ)
    else ((p0.2 ∩ p1.2).card : ℚ)

/-- Matrix cell access `mat[i][j]` (0 outside the matrix). -/
def matEntry (mat : List (List ℚ)) (i j : ℕ) : ℚ :=
  (mat.getD i []).getD j 0

/-- `max(clusters)` over a list of cluster ids (0 for the empty list). -/
def maxC (clusters : List ℕ) : ℕ :=
  clusters.foldl max 0

/-- The guarantees `scipy.cluster.hierarchy.fcluster` gives for its output on
`n` observations: one cluster id per observation, every id at least 1, and
every id from 1 to the maximum assigned to some observation. -/
def ValidClusters (n : ℕ) (clusters : List ℕ) : Prop :=
  clusters.length = n ∧ (∀ c ∈ clusters, 1 ≤ c) ∧
    ∀ k, 1 ≤ k → k ≤ maxC clusters → k ∈ clusters

instance (n : ℕ) (clusters : List ℕ) : Decidable (ValidClusters n clusters) :=
  decidable_of_iff
    (clusters.length = n ∧ (∀ c ∈ clusters, 1 ≤ c) ∧
      ∀ i ∈ List.range (maxC clusters), i + 1 ∈ clusters) <| by
    constructor
    · rintro ⟨h1, h2, h3⟩
      refine ⟨h1, h2, fun k hk1 hk2 => ?_⟩
      have hk : k - 1 ∈ List.range (maxC clusters) :=
        List.mem_range.mpr (by omega)
      have := h3 (k - 1) hk
      simpa [Nat.sub_add_cancel hk1] using this
    · rintro ⟨h1, h2, h3⟩
      refine ⟨h1, h2, fun i hi => ?_⟩
      exact h3 (i + 1) (by omega) (by simpa using List.mem_range.mp hi)

/-- `clusters.index(c)`: position of the first occurrence of `c` (list length
if absent; Python raises there, which `fcluster`'s guarantees rule out). -/
def idxOf (c : ℕ) : List ℕ → ℕ
  | [] => 0
  | x :: xs => if x = c then 0 else idxOf c xs + 1

/-- `sorted_labels`: for each cluster id `i+1` in ascending order, the label of
the first exchange assigned to that cluster (`labels[clusters.index(i+1)]`). -/
def sortedLabels (clusters : List ℕ) (labels : List String) : List String :=
  (List.range (maxC clusters)).map fun i =>
    labels.getD (idxOf (i + 1) clusters) ""

/-- `sorted_matrix`: row and column `i` both come from the first exchange of
cluster `i+1`. -/
def sortedMatrix (clusters : List ℕ) (mat : List (List ℚ)) : List (List ℚ) :=
  (List.range (maxC clusters)).map fun i =>
    (List.range (maxC clusters)).map fun j =>
      matEntry mat (idxOf (i + 1) clusters) (idxOf (j + 1) clusters)

/-- Stable insertion into a list sorted by descending member-set size: the new
element goes after every element at least as large. -/
def insertByCard (x : String × Finset ℕ) :
    List (String × Finset ℕ) → List (String × Finset ℕ)
  | [] => [x]
  | y :: ys =>
      if x.2.card ≤ y.2.card then y :: insertByCard x ys else x :: y :: ys

/-- `sorted(items, key=lambda x: len(x[1]), reverse=True)`: Python's sort is
stable, so it is the unique reordering that is descending by set size and
keeps ties in first-appearance order — realised here as a stable insertion
sort. -/
def sortByCardDesc (l : List (String × Finset ℕ)) :
    List (String × Finset ℕ) :=
  l.foldl (fun acc x => insertByCard x acc) []

/-- `top_countries[:5]`. -/
def topCountries (edges : List MembershipEdge) : List (String × Finset ℕ) :=
  (sortByCardDesc (groupCountries edges)).take 5

/-- "Descending by member-set size": the order the country summary is sorted
by. -/
def cardGE (a b : String × Finset ℕ) : Prop := b.2.card ≤ a.2.card

/-- The data handed to the renderer for one region: reordered labels and
matrix, plus the title metadata (total ASN count, shown threshold,
per-data-source membership counts, top-5 hosting countries). -/
structure RegionResult where
  labels : List String
  matrix : List (List ℚ)
  nbAsns : ℕ
  thresholdShown : ℕ
  datasetCounts : List (String × ℕ)
  topCountryCounts : List (String × ℕ)
deriving DecidableEq, Repr

/-- One iteration of the `heatmap_ixps` loop body for a region `cc`:
group, prune, build the matrix, and — when more than 2 exchanges survive —
cluster (via the supplied SciPy model `clusterOf`), reorder, and assemble
the render data; otherwise warn and produce nothing. -/
def heatmapRegion (clusterOf : List (List ℚ) → List ℕ) (cc : String)
    (normalize : Bool) (edges : List MembershipEdge) :
    Option RegionResult :=
  let pruned := prunedIxs cc edges
  let mat := buildMatrix normalize pruned
  if mat.length > 2 then
    let clusters := clusterOf mat
    some
      { labels := sortedLabels clusters (pruned.map Prod.fst)
        matrix := sortedMatrix clusters mat
        nbAsns := (allAsns edges).card
        thresholdShown := thresholdIxp edges
        datasetCounts := (groupDatasets edges).map fun p => (p.1, p.2.card)
        topCountryCounts := (topCountries edges).map fun p => (p.1, p.2.card) }
  else none

/-- The full `heatmap_ixps` loop: one (possibly absent) artifact per region,
in region-list order; a skipped region never stops the loop. -/
def heatmap_ixps (clusterOf : List (List ℚ) → List ℕ) (normalize : Bool)
    (query : String → List MembershipEdge)
    (regions : List String) : List (String × Option RegionResult) :=
  regions.map fun cc => (cc, heatmapRegion clusterOf cc normalize (query cc))

/-- The worked example from the specification: exchanges `IX_A` (members
AS1..AS5), `IX_B` (AS1, AS2, AS6, AS7, AS8) and `IX_C` (AS9), all hosted
outside the analyzed region. -/
def exampleEdges : List MembershipEdge :=
  [⟨"IX_A", 1, "ZZ", "ds"⟩, ⟨"IX_A", 2, "ZZ", "ds"⟩, ⟨"IX_A", 3, "ZZ", "ds"⟩,
   ⟨"IX_A", 4, "ZZ", "ds"⟩, ⟨"IX_A", 5, "ZZ", "ds"⟩,
   ⟨"IX_B", 1, "ZZ", "ds"⟩, ⟨"IX_B", 2, "ZZ", "ds"⟩, ⟨"IX_B", 6, "ZZ", "ds"⟩,
   ⟨"IX_B", 7, "ZZ", "ds"⟩, ⟨"IX_B", 8, "ZZ", "ds"⟩,
   ⟨"IX_C", 9, "ZZ", "ds"⟩]

/-- A relation in which two distinct exchanges, `IX_X` and `IX_Y`, have the
same five members while `IX_Z` has five others; all three survive pruning
for region `JP`.  The `IX_X` and `IX_Y` rows of the similarity matrix are
identical, so Ward linkage merges them at height 0 ≤ 0.2 and `fcluster`
gives them one cluster id — the assignment is `[1, 1, 2]`. -/
def twinEdges : List MembershipEdge :=
  [⟨"IX_X", 1, "ZZ", "ds"⟩, ⟨"IX_X", 2, "ZZ", "ds"⟩, ⟨"IX_X", 3, "ZZ", "ds"⟩,
   ⟨"IX_X", 4, "ZZ", "ds"⟩, ⟨"IX_X", 5, "ZZ", "ds"⟩,
   ⟨"IX_Y", 1, "ZZ", "ds"⟩, ⟨"IX_Y", 2, "ZZ", "ds"⟩, ⟨"IX_Y", 3, "ZZ", "ds"⟩,
   ⟨"IX_Y", 4, "ZZ", "ds"⟩, ⟨"IX_Y", 5, "ZZ", "ds"⟩,
   ⟨"IX_Z", 6, "ZZ", "ds"⟩, ⟨"IX_Z", 7, "ZZ", "ds"⟩, ⟨"IX_Z", 8, "ZZ", "ds"⟩,
   ⟨"IX_Z", 9, "ZZ", "ds"⟩, ⟨"IX_Z", 10, "ZZ", "ds"⟩]

/-! ## Basic lemmas about the embedded operations -/

theorem idxOf_lt_length {c : ℕ} {l : List ℕ} (h : c ∈ l) :
    idxOf c l < l.length := by
  induction l with
  | nil => cases h
  | cons x xs ih =>
      by_cases hx : x = c
      · simp [idxOf, hx]
      · rcases List.mem_cons.mp h with h' | h'
        · exact absurd h'.symm hx
        · simpa [idxOf, hx] using ih h'

theorem get_idxOf {c : ℕ} {l : List ℕ} (h : c ∈ l)
    (hlt : idxOf c l < l.length) : l.get ⟨idxOf c l, hlt⟩ = c := by
  induction l with
  | nil => cases h
  | cons x xs ih =>
      by_cases hx : x = c
      · simp [idxOf, hx]
      · rcases List.mem_cons.mp h with h' | h'
        · exact absurd h'.symm hx
        · have hlt' : idxOf c xs < xs.length := idxOf_lt_length h'
          simpa [idxOf, hx] using ih h' hlt'

theorem init_le_foldl_max (a : ℕ) (l : List ℕ) : a ≤ l.foldl max a := by
  induction l generalizing a with
  | nil => simp
  | cons x xs ih => exact le_trans (le_max_left a x) (ih (max a x))

theorem le_maxC_of_mem {c : ℕ} {clusters : List ℕ} (h : c ∈ clusters) :
    c ≤ maxC clusters := by
  unfold maxC
  generalize (0 : ℕ) = a
  induction clusters generalizing a with
  | nil => cases h
  | cons x xs ih =>
      rcases List.mem_cons.mp h with h' | h'
      · subst h'
        exact le_trans (le_max_right a c) (init_le_foldl_max _ xs)
      · exact ih h' _

theorem mem_of_lt_maxC {clusters : List ℕ} {n : ℕ}
    (hv : ValidClusters n clusters) {i : ℕ} (hi : i < maxC clusters) :
    i + 1 ∈ clusters :=
  hv.2.2 (i + 1) (Nat.le_add_left 1 i) (by omega)

theorem idxOf_rep_lt {clusters : List ℕ} {n : ℕ}
    (hv : ValidClusters n clusters) {i : ℕ} (hi : i < maxC clusters) :
    idxOf (i + 1) clusters < n :=
  hv.1 ▸ idxOf_lt_length (mem_of_lt_maxC hv hi)

/-- Distinct cluster ids have distinct first-occurrence positions. -/
theorem idxOf_rep_injective {clusters : List ℕ} {n : ℕ}
    (hv : ValidClusters n clusters) {i j : ℕ} (hi : i < maxC clusters)
    (hj : j < maxC clusters)
    (hij : idxOf (i + 1) clusters = idxOf (j + 1) clusters) : i = j := by
  have hmi := mem_of_lt_maxC hv hi
  have hmj := mem_of_lt_maxC hv hj
  have e1 := get_idxOf hmi (idxOf_lt_length hmi)
  have e2 := get_idxOf hmj (idxOf_lt_length hmj)
  have hfin : (⟨idxOf (i + 1) clusters, idxOf_lt_length hmi⟩ :
      Fin clusters.length) = ⟨idxOf (j + 1) clusters, idxOf_lt_length hmj⟩ :=
    Fin.ext hij
  rw [hfin] at e1
  have : i + 1 = j + 1 := e1.symm.trans e2
  omega

/-! ## Invariants of the grouping fold -/

theorem addMember_nonempty {m : List (String × Finset ℕ)} {k : String} {a : ℕ}
    (hm : ∀ p ∈ m, p.2.Nonempty) : ∀ p ∈ addMember m k a, p.2.Nonempty := by
  induction m with
  | nil =>
      intro p hp
      simp only [addMember, List.mem_singleton] at hp
      subst hp
      exact Finset.singleton_nonempty a
  | cons q rest ih =>
      intro p hp
      obtain ⟨k', s⟩ := q
      by_cases hk : k' = k
      · rw [show addMember ((k', s) :: rest) k a = (k', insert a s) :: rest by
          simp [addMember, hk]] at hp
        rcases List.mem_cons.mp hp with hp | hp
        · subst hp
          exact Finset.insert_nonempty a s
        · exact hm p (List.mem_cons_of_mem _ hp)
      · rw [show addMember ((k', s) :: rest) k a =
            (k', s) :: addMember rest k a by simp [addMember, hk]] at hp
        rcases List.mem_cons.mp hp with hp | hp
        · subst hp
          exact hm (k', s) (List.mem_cons_self _ _)
        · exact ih (fun q hq => hm q (List.mem_cons_of_mem _ hq)) p hp

/-- Every exchange entry built by the grouping fold has at least one member:
an entry is created only by adding a member. -/
theorem groupIxs_nonempty (edges : List MembershipEdge) :
    ∀ p ∈ groupIxs edges, p.2.Nonempty := by
  have key : ∀ (l : List MembershipEdge) (m : List (String × Finset ℕ)),
      (∀ p ∈ m, p.2.Nonempty) →
      ∀ p ∈ l.foldl (fun m e => addMember m (strLower e.ix_name) e.member_asn) m,
        p.2.Nonempty := by
    intro l
    induction l with
    | nil => intro m hm; simpa using hm
    | cons e rest ih =>
        intro m hm
        exact ih _ (addMember_nonempty hm)
  exact key edges [] (by simp)

theorem keys_addMember (m : List (String × Finset ℕ)) (k : String) (a : ℕ) :
    (addMember m k a).map Prod.fst =
      if k ∈ m.map Prod.fst then m.map Prod.fst else m.map Prod.fst ++ [k] := by
  induction m with
  | nil => simp [addMember]
  | cons q rest ih =>
      obtain ⟨k', s⟩ := q
      by_cases hk : k' = k
      · subst hk
        simp [addMember]
      · have hne : ¬ k = k' := fun h => hk h.symm
        by_cases hmem : k ∈ rest.map Prod.fst
        · simp [addMember, hk, ih, hmem, hne]
        · simp [addMember, hk, ih, hmem, hne]

theorem keys_nodup_addMember {m : List (String × Finset ℕ)} {k : String}
    {a : ℕ} (hm : (m.map Prod.fst).Nodup) :
    ((addMember m k a).map Prod.fst).Nodup := by
  rw [keys_addMember]
  by_cases hmem : k ∈ m.map Prod.fst
  · simpa [hmem] using hm
  · simpa [hmem, List.nodup_append] using hm

/-- The grouped mapping has pairwise-distinct keys (it models a `dict`). -/
theorem groupIxs_keys_nodup (edges : List MembershipEdge) :
    ((groupIxs edges).map Prod.fst).Nodup := by
  have key : ∀ (l : List MembershipEdge) (m : List (String × Finset ℕ)),
      (m.map Prod.fst).Nodup →
      ((l.foldl (fun m e => addMember m (strLower e.ix_name) e.member_asn)
          m).map Prod.fst).Nodup := by
    intro l
    induction l with
    | nil => intro m hm; simpa using hm
    | cons e rest ih => intro m hm; exact ih _ (keys_nodup_addMember hm)
  exact key edges [] (by simp)

/-! ## Facts about pruning -/

theorem mem_prunedIxs {cc : String} {edges : List MembershipEdge}
    {p : String × Finset ℕ} :
    p ∈ prunedIxs cc edges ↔
      p ∈ groupIxs edges ∧ removeIx cc (thresholdIxp edges) p = false := by
  simp [prunedIxs, List.mem_filter]

theorem prunedIxs_sublist (cc : String) (edges : List MembershipEdge) :
    (prunedIxs cc edges).Sublist (groupIxs edges) :=
  List.filter_sublist _

theorem prunedIxs_nonempty (cc : String) (edges : List MembershipEdge) :
    ∀ p ∈ prunedIxs cc edges, p.2.Nonempty :=
  fun p hp => groupIxs_nonempty edges p ((prunedIxs_sublist cc edges).mem hp)

theorem prunedIxs_keys_nodup (cc : String) (edges : List MembershipEdge) :
    ((prunedIxs cc edges).map Prod.fst).Nodup :=
  ((prunedIxs_sublist cc edges).map Prod.fst).nodup (groupIxs_keys_nodup edges)

/-- Unfolding the survival test: an entry survives pruning iff it is grouped
and meets its applicable minimum. -/
theorem removeIx_eq_false_iff {cc : String} {t : ℕ} {p : String × Finset ℕ} :
    removeIx cc t p = false ↔
      (if strEndsWith p.1 (strLower cc) then 5 ≤ p.2.card else t ≤ p.2.card) := by
  cases h : strEndsWith p.1 (strLower cc) with
  | true =>
      simp only [removeIx, h, if_true, Bool.not_true, Bool.and_false,
        Bool.false_or, Bool.true_and, decide_eq_false_iff_not, Nat.not_lt]
  | false =>
      simp only [removeIx, h, Bool.not_false, Bool.and_true, Bool.false_and,
        Bool.or_false, decide_eq_false_iff_not, Nat.not_lt, Bool.false_eq_true,
        if_false]

/-- The embedded threshold agrees with the specified
`max(floor(total_distinct_asns * MIN_NB_AS), 5)`. -/
theorem thresholdIxp_eq_floor (edges : List MembershipEdge) :
    thresholdIxp edges =
      max (Int.toNat ⌊((allAsns edges).card : ℚ) * MIN_NB_AS⌋) 5 := by
  have h1 : ((allAsns edges).card : ℚ) * MIN_NB_AS =
      (((allAsns edges).card * 5 : ℕ) : ℚ) / ((100 : ℕ) : ℚ) := by
    unfold MIN_NB_AS
    push_cast
    ring
  rw [thresholdIxp, h1, Rat.floor_natCast_div_natCast, ← Int.natCast_div,
    Int.toNat_natCast]

/-! ## Matrix access lemmas -/

theorem buildMatrix_length (normalize : Bool) (m : List (String × Finset ℕ)) :
    (buildMatrix normalize m).length = m.length := by
  simp [buildMatrix]

theorem matEntry_buildMatrix (normalize : Bool)
    (m : List (String × Finset ℕ)) {i j : ℕ} (hi : i < m.length)
    (hj : j < m.length) :
    matEntry (buildMatrix normalize m) i j =
      if normalize then
        (((m.getD i ("", ∅)).2 ∩ (m.getD j ("", ∅)).2).card : ℚ) /
          ((m.getD i ("", ∅)).2.card : ℚ)
      else (((m.getD i ("", ∅)).2 ∩ (m.getD j ("", ∅)).2).card : ℚ) := by
  have hi' : i < (buildMatrix normalize m).length := by simp [buildMatrix, hi]
  unfold matEntry
  rw [List.getD_eq_getElem _ _ hi']
  unfold buildMatrix
  rw [List.getElem_map]
  have hj' : j < (List.map (fun p1 =>
      if normalize then ((m[i].2 ∩ p1.2).card : ℚ) / (m[i].2.card : ℚ)
      else ((m[i].2 ∩ p1.2).card : ℚ)) m).length := by simp [hj]
  rw [List.getD_eq_getElem _ _ hj']
  rw [List.getElem_map]
  rw [List.getD_eq_getElem _ _ hi, List.getD_eq_getElem _ _ hj]

theorem sortedLabels_length (clusters : List ℕ) (labels : List String) :
    (sortedLabels clusters labels).length = maxC clusters := by
  simp [sortedLabels]

theorem sortedLabels_getD (clusters : List ℕ) (labels : List String) {i : ℕ}
    (hi : i < maxC clusters) :
    (sortedLabels clusters labels).getD i "" =
      labels.getD (idxOf (i + 1) clusters) "" := by
  unfold sortedLabels
  rw [List.getD_eq_getElem _ _ (by simpa using hi), List.getElem_map,
    List.getElem_range]

theorem sortedMatrix_length (clusters : List ℕ) (mat : List (List ℚ)) :
    (sortedMatrix clusters mat).length = maxC clusters := by
  simp [sortedMatrix]

theorem sortedMatrix_row_length (clusters : List ℕ) (mat : List (List ℚ)) :
    ∀ row ∈ sortedMatrix clusters mat, row.length = maxC clusters := by
  intro row hrow
  unfold sortedMatrix at hrow
  rcases List.mem_map.mp hrow with ⟨i, _, rfl⟩
  simp

theorem sortedMatrix_entry (clusters : List ℕ) (mat : List (List ℚ)) {i j : ℕ}
    (hi : i < maxC clusters) (hj : j < maxC clusters) :
    matEntry (sortedMatrix clusters mat) i j =
      matEntry mat (idxOf (i + 1) clusters) (idxOf (j + 1) clusters) := by
  conv_lhs => rw [matEntry]
  unfold sortedMatrix
  have hi' : i < (List.map (fun i => List.map (fun j =>
      matEntry mat (idxOf (i + 1) clusters) (idxOf (j + 1) clusters))
        (List.range (maxC clusters))) (List.range (maxC clusters))).length := by
    simp [hi]
  rw [List.getD_eq_getElem _ _ hi', List.getElem_map, List.getElem_range]
  have hj' : j < (List.map (fun j => matEntry mat (idxOf (i + 1) clusters)
      (idxOf (j + 1) clusters)) (List.range (maxC clusters))).length := by
    simp [hj]
  rw [List.getD_eq_getElem _ _ hj', List.getElem_map, List.getElem_range]

/-! ## The stable descending sort behind the top-country summary -/

theorem insertByCard_perm (x : String × Finset ℕ)
    (l : List (String × Finset ℕ)) : (insertByCard x l).Perm (x :: l) := by
  induction l with
  | nil => exact List.Perm.refl _
  | cons y ys ih =>
      by_cases h : x.2.card ≤ y.2.card
      · simp only [insertByCard, if_pos h]
        exact (ih.cons y).trans (List.Perm.swap x y ys)
      · simp [insertByCard, h]

theorem mem_insertByCard {a x : String × Finset ℕ}
    {l : List (String × Finset ℕ)} :
    a ∈ insertByCard x l ↔ a = x ∨ a ∈ l := by
  simpa using (insertByCard_perm x l).mem_iff

theorem insertByCard_pairwise {x : String × Finset ℕ}
    {l : List (String × Finset ℕ)} (h : l.Pairwise cardGE) :
    (insertByCard x l).Pairwise cardGE := by
  induction l with
  | nil => simp [insertByCard]
  | cons y ys ih =>
      rcases List.pairwise_cons.mp h with ⟨hy, hys⟩
      by_cases hc : x.2.card ≤ y.2.card
      · simp only [insertByCard, if_pos hc]
        refine List.pairwise_cons.mpr ⟨?_, ih hys⟩
        intro a ha
        rcases mem_insertByCard.mp ha with rfl | ha'
        · exact hc
        · exact hy a ha'
      · simp only [insertByCard, if_neg hc]
        refine List.pairwise_cons.mpr ⟨?_, h⟩
        intro a ha
        rcases List.mem_cons.mp ha with rfl | ha'
        · exact le_of_not_le hc
        · exact le_trans (hy a ha') (le_of_not_le hc)

theorem foldl_insertByCard_perm (l acc : List (String × Finset ℕ)) :
    (l.foldl (fun a x => insertByCard x a) acc).Perm (acc ++ l) := by
  induction l generalizing acc with
  | nil => simp
  | cons x xs ih =>
      refine (ih _).trans ?_
      exact ((insertByCard_perm x acc).append_right xs).trans
        List.perm_middle.symm

theorem sortByCardDesc_perm (l : List (String × Finset ℕ)) :
    (sortByCardDesc l).Perm l := by
  simpa [sortByCardDesc] using foldl_insertByCard_perm l []

theorem foldl_insertByCard_pairwise (l : List (String × Finset ℕ))
    {acc : List (String × Finset ℕ)} (h : acc.Pairwise cardGE) :
    (l.foldl (fun a x => insertByCard x a) acc).Pairwise cardGE := by
  induction l generalizing acc with
  | nil => simpa using h
  | cons x xs ih => exact ih (insertByCard_pairwise h)

theorem sortByCardDesc_pairwise (l : List (String × Finset ℕ)) :
    (sortByCardDesc l).Pairwise cardGE :=
  foldl_insertByCard_pairwise l (by simp)

theorem filter_insertByCard (k : ℕ) (x : String × Finset ℕ)
    {l : List (String × Finset ℕ)} (hl : l.Pairwise cardGE) :
    (insertByCard x l).filter (fun p => p.2.card == k) =
      l.filter (fun p => p.2.card == k) ++
        (if x.2.card == k then [x] else []) := by
  induction l with
  | nil => by_cases hx : (x.2.card == k) = true <;> simp [insertByCard, hx]
  | cons y ys ih =>
      rcases List.pairwise_cons.mp hl with ⟨hy, hys⟩
      by_cases hc : x.2.card ≤ y.2.card
      · by_cases hf : (y.2.card == k) = true <;>
          simp [insertByCard, hc, List.filter_cons, hf, ih hys]
      · by_cases hx : (x.2.card == k) = true
        · have hxk : x.2.card = k := by simpa using hx
          have hfilter : (y :: ys).filter (fun p => p.2.card == k) = [] := by
            rw [List.filter_eq_nil_iff]
            intro a ha
            have hle : a.2.card ≤ y.2.card := by
              rcases List.mem_cons.mp ha with rfl | ha'
              · exact le_rfl
              · exact hy a ha'
            have : a.2.card ≠ k := by omega
            simpa using this
          simp [insertByCard, hc, List.filter_cons, hx, hfilter]
        · simp [insertByCard, hc, List.filter_cons, hx]

theorem filter_foldl_insertByCard (k : ℕ) (l : List (String × Finset ℕ))
    {acc : List (String × Finset ℕ)} (h : acc.Pairwise cardGE) :
    (l.foldl (fun a x => insertByCard x a) acc).filter
        (fun p => p.2.card == k) =
      acc.filter (fun p => p.2.card == k) ++
        l.filter (fun p => p.2.card == k) := by
  induction l generalizing acc with
  | nil => simp
  | cons x xs ih =>
      rw [List.foldl_cons, ih (insertByCard_pairwise h),
        filter_insertByCard k x h, List.filter_cons]
      by_cases hx : (x.2.card == k) = true <;> simp [hx]

/-- Stability of the embedded sort: within one value of the sort key, the
sorted list keeps the original (first-appearance) order. -/
theorem sortByCardDesc_filter (k : ℕ) (l : List (String × Finset ℕ)) :
    (sortByCardDesc l).filter (fun p => p.2.card == k) =
      l.filter (fun p => p.2.card == k) := by
  simpa [sortByCardDesc] using filter_foldl_insertByCard k l (by simp)

/-! ## Properties of the reorder step under the fcluster guarantees -/

theorem sortedLabels_mem {clusters : List ℕ} {labels : List String}
    (hv : ValidClusters labels.length clusters) :
    ∀ l ∈ sortedLabels clusters labels, l ∈ labels := by
  intro l hl
  unfold sortedLabels at hl
  rcases List.mem_map.mp hl with ⟨i, hi, rfl⟩
  have ri := idxOf_rep_lt hv (List.mem_range.mp hi)
  rw [List.getD_eq_getElem _ _ ri]
  exact List.getElem_mem _

theorem sortedLabels_nodup {clusters : List ℕ} {labels : List String}
    (hv : ValidClusters labels.length clusters) (hl : labels.Nodup) :
    (sortedLabels clusters labels).Nodup := by
  unfold sortedLabels
  refine List.Nodup.map_on ?_ (List.nodup_range _)
  intro i hi j hj hf
  have hi' := List.mem_range.mp hi
  have hj' := List.mem_range.mp hj
  have ri := idxOf_rep_lt hv hi'
  have rj := idxOf_rep_lt hv hj'
  rw [List.getD_eq_getElem _ _ ri, List.getD_eq_getElem _ _ rj] at hf
  have hinj := List.nodup_iff_injective_getElem.mp hl
  have : (⟨idxOf (i + 1) clusters, ri⟩ : Fin labels.length) =
      ⟨idxOf (j + 1) clusters, rj⟩ := hinj hf
  exact idxOf_rep_injective hv hi' hj' (congrArg Fin.val this)

/-! ## Claim theorems -/

/-- Claim C2: in every non-empty membership relation, each exchange that
survives pruning meets its applicable minimum — at least 5 members when its
normalized label marks it as hosted in the analyzed region, and at least
`max(⌊total_distinct_asns * 0.05⌋, 5)` members otherwise, where
`total_distinct_asns` counts the distinct member ASNs over all edges;
consequently every label in the emitted label list belongs to such a
surviving exchange. -/
theorem pruned_exchanges_meet_thresholds (cc : String)
    (edges : List MembershipEdge) (_hne : edges ≠ [])
    (p : String × Finset ℕ) (hp : p ∈ prunedIxs cc edges) :
    (strEndsWith p.1 (strLower cc) = true → 5 ≤ p.2.card) ∧
    (strEndsWith p.1 (strLower cc) = false →
      max (Int.toNat ⌊((allAsns edges).card : ℚ) * MIN_NB_AS⌋) 5 ≤ p.2.card) ∧
    (∀ clusters, ValidClusters (prunedIxs cc edges).length clusters →
      ∀ l ∈ sortedLabels clusters ((prunedIxs cc edges).map Prod.fst),
        ∃ s, (l, s) ∈ prunedIxs cc edges) := by
  have h := (mem_prunedIxs.mp hp).2
  rw [removeIx_eq_false_iff] at h
  refine ⟨?_, ?_, ?_⟩
  · intro he
    rw [he] at h
    simpa using h
  · intro he
    rw [he] at h
    rw [← thresholdIxp_eq_floor]
    simpa using h
  · intro clusters hv l hl
    have hv' : ValidClusters ((prunedIxs cc edges).map Prod.fst).length
        clusters := by simpa [List.length_map] using hv
    have hmem := sortedLabels_mem hv' l hl
    rcases List.mem_map.mp hmem with ⟨q, hq, rfl⟩
    exact ⟨q.2, hq⟩

/-- Witness for C2 at the concrete `twinEdges` relation and its surviving
exchange `ix_x`. -/
theorem pruned_exchanges_meet_thresholds_witness :
    (strEndsWith "ix_x" (strLower "JP") = true →
      5 ≤ ({1, 2, 3, 4, 5} : Finset ℕ).card) ∧
    (strEndsWith "ix_x" (strLower "JP") = false →
      max (Int.toNat ⌊((allAsns twinEdges).card : ℚ) * MIN_NB_AS⌋) 5 ≤
        ({1, 2, 3, 4, 5} : Finset ℕ).card) ∧
    (∀ clusters, ValidClusters (prunedIxs "JP" twinEdges).length clusters →
      ∀ l ∈ sortedLabels clusters ((prunedIxs "JP" twinEdges).map Prod.fst),
        ∃ s, (l, s) ∈ prunedIxs "JP" twinEdges) :=
  pruned_exchanges_meet_thresholds "JP" twinEdges (by decide)
    ("ix_x", {1, 2, 3, 4, 5}) (by decide)

/-- Claim C9: every entry of the grouped mapping (and a fortiori of the
pruned mapping) has a non-empty member-ASN set — an entry is only created
when an edge adds a member — so the per-row division of the normalized
matrix construction never divides by zero. -/
theorem grouped_member_sets_nonempty (cc : String)
    (edges : List MembershipEdge) (p : String × Finset ℕ)
    (hp : p ∈ groupIxs edges) :
    p.2.Nonempty ∧ ∀ q ∈ prunedIxs cc edges, ((q.2.card : ℚ) ≠ 0) := by
  refine ⟨groupIxs_nonempty edges p hp, fun q hq => ?_⟩
  have hne := prunedIxs_nonempty cc edges q hq
  exact_mod_cast Finset.card_ne_zero.mpr hne

/-- Witness for C9 at the concrete `twinEdges` relation and its grouped
entry `ix_x`. -/
theorem grouped_member_sets_nonempty_witness :
    ({1, 2, 3, 4, 5} : Finset ℕ).Nonempty ∧
    ∀ q ∈ prunedIxs "JP" twinEdges, ((q.2.card : ℚ) ≠ 0) :=
  grouped_member_sets_nonempty "JP" twinEdges ("ix_x", {1, 2, 3, 4, 5})
    (by decide)

/-- Claim C4: with normalization disabled, the similarity matrix over the
pruned exchange set is symmetric, each cell `(i, j)` being the size of the
intersection of the member sets of exchanges `i` and `j`. -/
theorem matrix_symmetric_unnormalized (cc : String)
    (edges : List MembershipEdge) {i j : ℕ}
    (hi : i < (prunedIxs cc edges).length)
    (hj : j < (prunedIxs cc edges).length) :
    matEntry (buildMatrix false (prunedIxs cc edges)) i j =
      matEntry (buildMatrix false (prunedIxs cc edges)) j i ∧
    matEntry (buildMatrix false (prunedIxs cc edges)) i j =
      ((((prunedIxs cc edges).getD i ("", ∅)).2 ∩
        ((prunedIxs cc edges).getD j ("", ∅)).2).card : ℚ) := by
  have h1 := matEntry_buildMatrix false (prunedIxs cc edges) hi hj
  have h2 := matEntry_buildMatrix false (prunedIxs cc edges) hj hi
  simp only [Bool.false_eq_true, if_false] at h1 h2
  refine ⟨?_, h1⟩
  rw [h1, h2, Finset.inter_comm]

/-- Witness for C4 at the concrete `twinEdges` relation, cells `(0, 2)` and
`(2, 0)`. -/
theorem matrix_symmetric_unnormalized_witness :
    matEntry (buildMatrix false (prunedIxs "JP" twinEdges)) 0 2 =
      matEntry (buildMatrix false (prunedIxs "JP" twinEdges)) 2 0 ∧
    matEntry (buildMatrix false (prunedIxs "JP" twinEdges)) 0 2 =
      ((((prunedIxs "JP" twinEdges).getD 0 ("", ∅)).2 ∩
        ((prunedIxs "JP" twinEdges).getD 2 ("", ∅)).2).card : ℚ) :=
  matrix_symmetric_unnormalized "JP" twinEdges (by decide) (by decide)

/-- Claim C5: diagonal cell `(i, i)` of the similarity matrix over the pruned
exchange set equals the member-set size of exchange `i` when normalization is
disabled, and exactly 1 when normalization is enabled. -/
theorem matrix_diagonal_values (cc : String) (edges : List MembershipEdge)
    {i : ℕ} (hi : i < (prunedIxs cc edges).length) :
    matEntry (buildMatrix false (prunedIxs cc edges)) i i =
      (((prunedIxs cc edges).getD i ("", ∅)).2.card : ℚ) ∧
    matEntry (buildMatrix true (prunedIxs cc edges)) i i = 1 := by
  have h1 := matEntry_buildMatrix false (prunedIxs cc edges) hi hi
  have h2 := matEntry_buildMatrix true (prunedIxs cc edges) hi hi
  simp only [Bool.false_eq_true, if_false, if_true] at h1 h2
  have hmem : (prunedIxs cc edges).getD i ("", ∅) ∈ prunedIxs cc edges := by
    rw [List.getD_eq_getElem _ _ hi]
    exact List.getElem_mem _
  have hne := prunedIxs_nonempty cc edges _ hmem
  have hcard : ((((prunedIxs cc edges).getD i ("", ∅)).2.card : ℚ)) ≠ 0 := by
    exact_mod_cast Finset.card_ne_zero.mpr hne
  constructor
  · rw [h1, Finset.inter_self]
  · rw [h2, Finset.inter_self]
    exact div_self hcard

/-- Witness for C5 at the concrete `twinEdges` relation, diagonal cell
`(1, 1)`. -/
theorem matrix_diagonal_values_witness :
    matEntry (buildMatrix false (prunedIxs "JP" twinEdges)) 1 1 =
      (((prunedIxs "JP" twinEdges).getD 1 ("", ∅)).2.card : ℚ) ∧
    matEntry (buildMatrix true (prunedIxs "JP" twinEdges)) 1 1 = 1 :=
  matrix_diagonal_values "JP" twinEdges (by decide)

/-- Claim C1 (counterexample): on `twinEdges`, three exchanges survive
pruning, `[1, 1, 2]` satisfies all of `fcluster`'s output guarantees (and is
what Ward linkage cut at 0.2 yields, since the `ix_x` and `ix_y` rows are
identical), yet the reordered label list is `["ix_x", "ix_z"]` — not a
permutation of the pruned labels: `ix_y` is dropped. -/
theorem reorder_not_permutation_cex :
    2 < (prunedIxs "JP" twinEdges).length ∧
    ValidClusters (prunedIxs "JP" twinEdges).length [1, 1, 2] ∧
    sortedLabels [1, 1, 2] ((prunedIxs "JP" twinEdges).map Prod.fst) =
      ["ix_x", "ix_z"] ∧
    ¬ (sortedLabels [1, 1, 2]
        ((prunedIxs "JP" twinEdges).map Prod.fst)).Perm
      ((prunedIxs "JP" twinEdges).map Prod.fst) := by decide

/-- Claim C1 (amended): the clustering-reorder step emits, for each cluster
id from 1 to the maximum in ascending order, exactly one exchange — the
first pruned exchange assigned to that id — so the output equals the pruned
multiset only when every cluster is a singleton.  Alignment holds as
claimed: reordered row `i` and column `i` refer to the same exchange (the
representative of cluster `i+1`), whose label is entry `i` of the reordered
label list; with normalization off, reordered cell `(i, j)` is the
intersection size of the representatives of clusters `i+1` and `j+1`. -/
theorem reorder_emits_cluster_representatives (cc : String)
    (edges : List MembershipEdge) (normalize : Bool) (clusters : List ℕ)
    (hv : ValidClusters (prunedIxs cc edges).length clusters)
    {i j : ℕ} (hi : i < maxC clusters) (hj : j < maxC clusters) :
    (sortedLabels clusters ((prunedIxs cc edges).map Prod.fst)).getD i "" =
      ((prunedIxs cc edges).getD (idxOf (i + 1) clusters) ("", ∅)).1 ∧
    matEntry (sortedMatrix clusters
        (buildMatrix normalize (prunedIxs cc edges))) i j =
      matEntry (buildMatrix normalize (prunedIxs cc edges))
        (idxOf (i + 1) clusters) (idxOf (j + 1) clusters) ∧
    (normalize = false →
      matEntry (sortedMatrix clusters
          (buildMatrix normalize (prunedIxs cc edges))) i j =
        ((((prunedIxs cc edges).getD (idxOf (i + 1) clusters) ("", ∅)).2 ∩
          ((prunedIxs cc edges).getD (idxOf (j + 1) clusters) ("", ∅)).2).card
            : ℚ)) := by
  have ri := idxOf_rep_lt hv hi
  have rj := idxOf_rep_lt hv hj
  refine ⟨?_, sortedMatrix_entry clusters _ hi hj, ?_⟩
  · rw [sortedLabels_getD clusters _ hi,
      List.getD_eq_getElem _ _ (by simpa [List.length_map] using ri),
      List.getElem_map, List.getD_eq_getElem _ _ ri]
  · rintro rfl
    rw [sortedMatrix_entry clusters _ hi hj,
      matEntry_buildMatrix false (prunedIxs cc edges) ri rj]
    simp

/-- Witness for the amended C1 on `twinEdges` with the Ward/fcluster
assignment `[1, 1, 2]`, at reordered cell `(0, 1)`. -/
theorem reorder_emits_cluster_representatives_witness :
    (sortedLabels [1, 1, 2]
        ((prunedIxs "JP" twinEdges).map Prod.fst)).getD 0 "" =
      ((prunedIxs "JP" twinEdges).getD (idxOf (0 + 1) [1, 1, 2]) ("", ∅)).1 ∧
    matEntry (sortedMatrix [1, 1, 2]
        (buildMatrix false (prunedIxs "JP" twinEdges))) 0 1 =
      matEntry (buildMatrix false (prunedIxs "JP" twinEdges))
        (idxOf (0 + 1) [1, 1, 2]) (idxOf (1 + 1) [1, 1, 2]) ∧
    (false = false →
      matEntry (sortedMatrix [1, 1, 2]
          (buildMatrix false (prunedIxs "JP" twinEdges))) 0 1 =
        ((((prunedIxs "JP" twinEdges).getD (idxOf (0 + 1) [1, 1, 2])
            ("", ∅)).2 ∩
          ((prunedIxs "JP" twinEdges).getD (idxOf (1 + 1) [1, 1, 2])
            ("", ∅)).2).card : ℚ)) :=
  reorder_emits_cluster_representatives "JP" twinEdges false [1, 1, 2]
    (by decide) (by decide) (by decide)

/-- Claim C10: under `fcluster`'s guarantees, the emitted label list has one
label per distinct cluster id (its length is the maximum cluster id), its
entries are pairwise distinct and drawn from the pruned label list, and the
emitted matrix is square of the same dimension. -/
theorem reordered_output_invariants (cc : String)
    (edges : List MembershipEdge) (normalize : Bool) (clusters : List ℕ)
    (hv : ValidClusters (prunedIxs cc edges).length clusters) :
    (sortedLabels clusters ((prunedIxs cc edges).map Prod.fst)).length =
      maxC clusters ∧
    (sortedLabels clusters ((prunedIxs cc edges).map Prod.fst)).Nodup ∧
    (∀ l ∈ sortedLabels clusters ((prunedIxs cc edges).map Prod.fst),
      l ∈ (prunedIxs cc edges).map Prod.fst) ∧
    (sortedMatrix clusters (buildMatrix normalize (prunedIxs cc edges))).length
      = (sortedLabels clusters ((prunedIxs cc edges).map Prod.fst)).length ∧
    ∀ row ∈ sortedMatrix clusters (buildMatrix normalize (prunedIxs cc edges)),
      row.length =
        (sortedLabels clusters ((prunedIxs cc edges).map Prod.fst)).length := by
  have hv' : ValidClusters ((prunedIxs cc edges).map Prod.fst).length
      clusters := by simpa [List.length_map] using hv
  refine ⟨sortedLabels_length _ _,
    sortedLabels_nodup hv' (prunedIxs_keys_nodup cc edges),
    sortedLabels_mem hv', ?_, ?_⟩
  · rw [sortedMatrix_length, sortedLabels_length]
  · intro row hrow
    rw [sortedLabels_length]
    exact sortedMatrix_row_length clusters _ row hrow

/-- Witness for C10 on `twinEdges` with the cluster assignment `[1, 1, 2]`. -/
theorem reordered_output_invariants_witness :
    (sortedLabels [1, 1, 2]
        ((prunedIxs "JP" twinEdges).map Prod.fst)).length = maxC [1, 1, 2] ∧
    (sortedLabels [1, 1, 2] ((prunedIxs "JP" twinEdges).map Prod.fst)).Nodup ∧
    (∀ l ∈ sortedLabels [1, 1, 2] ((prunedIxs "JP" twinEdges).map Prod.fst),
      l ∈ (prunedIxs "JP" twinEdges).map Prod.fst) ∧
    (sortedMatrix [1, 1, 2]
        (buildMatrix false (prunedIxs "JP" twinEdges))).length =
      (sortedLabels [1, 1, 2]
        ((prunedIxs "JP" twinEdges).map Prod.fst)).length ∧
    ∀ row ∈ sortedMatrix [1, 1, 2]
        (buildMatrix false (prunedIxs "JP" twinEdges)),
      row.length =
        (sortedLabels [1, 1, 2]
          ((prunedIxs "JP" twinEdges).map Prod.fst)).length :=
  reordered_output_invariants "JP" twinEdges false [1, 1, 2] (by decide)

/-- Claim C3: a region whose relation is empty or whose pruned exchange set
has fewer than 3 entries produces no matrix and no artifact — the else
branch (the warning) is taken — and the loop nevertheless yields one entry
per region, so processing continues. -/
theorem insufficient_data_yields_no_matrix
    (clusterOf : List (List ℚ) → List ℕ) (cc : String) (normalize : Bool)
    (edges : List MembershipEdge)
    (h : edges = [] ∨ (prunedIxs cc edges).length < 3) :
    heatmapRegion clusterOf cc normalize edges = none ∧
    ∀ (query : String → List MembershipEdge) (regions : List String),
      (heatmap_ixps clusterOf normalize query regions).length =
        regions.length := by
  constructor
  · have hlen : (prunedIxs cc edges).length < 3 := by
      rcases h with rfl | h
      · simp [prunedIxs, groupIxs]
      · exact h
    have hb := buildMatrix_length normalize (prunedIxs cc edges)
    simp only [heatmapRegion]
    rw [if_neg (by omega)]
  · intro query regions
    simp [heatmap_ixps]

/-- Witness for C3 on the specification's worked example, whose pruned set
has only two exchanges. -/
theorem insufficient_data_yields_no_matrix_witness :
    heatmapRegion (fun _ => []) "JP" false exampleEdges = none ∧
    ∀ (query : String → List MembershipEdge) (regions : List String),
      (heatmap_ixps (fun _ => []) false query regions).length =
        regions.length :=
  insufficient_data_yields_no_matrix (fun _ => []) "JP" false exampleEdges
    (Or.inr (by decide))

/-- Claim C6: on the worked-example relation (no domestic label), grouping
finds 9 distinct ASNs, the international threshold is
`max(⌊9 * 0.05⌋, 5) = 5`, exchanges `ix_a` and `ix_b` (5 members each)
are retained while `ix_c` (1 member) is pruned, and with only 2 surviving
exchanges the region is skipped: no matrix is produced. -/
theorem example_region_pruned_and_skipped :
    (allAsns exampleEdges).card = 9 ∧
    thresholdIxp exampleEdges = 5 ∧
    max (Int.toNat ⌊((allAsns exampleEdges).card : ℚ) * MIN_NB_AS⌋) 5 = 5 ∧
    (∀ p ∈ groupIxs exampleEdges,
      strEndsWith p.1 (strLower "JP") = false) ∧
    (prunedIxs "JP" exampleEdges).map Prod.fst = ["ix_a", "ix_b"] ∧
    (prunedIxs "JP" exampleEdges).length < 3 ∧
    ∀ clusterOf, heatmapRegion clusterOf "JP" false exampleEdges = none := by
  refine ⟨by decide, by decide, ?_, by decide, by decide, by decide, ?_⟩
  · rw [← thresholdIxp_eq_floor]
    decide
  · intro clusterOf
    have hb := buildMatrix_length false (prunedIxs "JP" exampleEdges)
    have hlen : (prunedIxs "JP" exampleEdges).length = 2 := by decide
    simp only [heatmapRegion]
    rw [if_neg (by omega)]

/-- Claim C7: the Clusterer stage is a pure function of the membership
relation and the configuration (region code, normalization flag, and the
clustering routine with its cut threshold): two runs on the same inputs
produce the identical optional artifact — reordered labels, matrix, and
title metadata alike. -/
theorem clusterer_deterministic (clusterOf : List (List ℚ) → List ℕ)
    (cc : String) (normalize : Bool) (edges edges' : List MembershipEdge)
    (h : edges = edges') :
    heatmapRegion clusterOf cc normalize edges =
      heatmapRegion clusterOf cc normalize edges' := by
  rw [h]

/-- Witness for C7: two runs on the `twinEdges` relation. -/
theorem clusterer_deterministic_witness :
    heatmapRegion (fun _ => [1, 1, 2]) "JP" false twinEdges =
      heatmapRegion (fun _ => [1, 1, 2]) "JP" false twinEdges :=
  clusterer_deterministic (fun _ => [1, 1, 2]) "JP" false twinEdges twinEdges
    rfl

/-- Claim C8: the top-5 hosting-country summary is the 5-element prefix of
the country tally sorted by descending distinct-peer count; the sorted tally
is a permutation of the per-country tally in first-appearance order, and
within any fixed count value it preserves that first-appearance order (the
stable tie-break), so at most 5 countries are listed, in descending count
order with ties broken by first appearance. -/
theorem top_countries_sorted_stable (edges : List MembershipEdge) :
    topCountries edges = (sortByCardDesc (groupCountries edges)).take 5 ∧
    (topCountries edges).length ≤ 5 ∧
    (topCountries edges).Pairwise cardGE ∧
    (sortByCardDesc (groupCountries edges)).Perm (groupCountries edges) ∧
    ∀ k, (sortByCardDesc (groupCountries edges)).filter
        (fun p => p.2.card == k) =
      (groupCountries edges).filter (fun p => p.2.card == k) := by
  refine ⟨rfl, ?_, ?_, sortByCardDesc_perm _, fun k => sortByCardDesc_filter k _⟩
  · rw [topCountries, List.length_take]
    exact min_le_left _ _
  · rw [topCountries]
    exact List.Pairwise.sublist (List.take_sublist 5 _)
      (sortByCardDesc_pairwise _)
